import Mathlib

/-!
# Verification of the ROLLER-installer asset-extraction subsystem

Shallow embedding of `roller_installer/core/asset_extractor.py` and the three
format handlers (`zip_handler.py`, `iso_handler.py`, `cue_bin_handler.py`).

Conventions of the embedding:
* a Python string is modelled as `List Char` (`Name`);
* a `pathlib.Path` value is modelled by its parsed parts, `List Name`
  (`FsPath`), mirroring pathlib's normalization (empty and `"."` segments
  dropped, `".."` kept, a root part `"/"` or `"//"` kept as its own part);
* filesystem effects are modelled by explicit operation lists (`FsOp`) or by
  boolean oracles (`FsView`) describing the relevant filesystem state;
* Python exceptions are modelled by `PyErr`; fallible code returns `Except`.
  `FileNotFoundError` is a subclass of `OSError` in Python, which matters for
  the `except OSError` clause of the ZIP handler; `PyErr.isOSErrorClass`
  records exactly that subclass relation.
-/

namespace Roller

/-- A Python string (the installer only manipulates plain character data). -/
abbrev Name := List Char

/-- A pathlib path, as its list of parsed parts. -/
abbrev FsPath := List Name

/-- `str.lower()` (ASCII case folding, as in all names this program touches). -/
def lowerName (s : Name) : Name := s.map Char.toLower

/-- `str.upper()`. -/
def upperName (s : Name) : Name := s.map Char.toUpper

/-- Message tags distinguishing the `RuntimeError` raise sites of the code. -/
inductive RtTag where
  /-- `zip_handler.py`: `raise RuntimeError(f"Failed to extract files from ...")`
      (the `except OSError` clause). -/
  | zipOsWrapped
  /-- `zip_handler.py`: `raise RuntimeError(f"Failed to read ZIP file ...")`. -/
  | zipBadZip
  /-- `iso_handler.py`: `raise RuntimeError(f"Failed to extract from ISO ...")`. -/
  | isoWrapped
  /-- `cue_bin_handler.py`: `raise RuntimeError("No data track found in CUE/BIN file")`. -/
  | noDataTrack
  /-- `cue_bin_handler.py`: `raise RuntimeError(f"Failed to run bchunk: ...")`. -/
  | bchunkRunFailed
  deriving DecidableEq, Repr

/-- The Python exception classes raised by the asset-extraction subsystem. -/
inductive PyErr where
  | valueError
  | fileNotFoundError
  | runtimeError (tag : RtTag)
  deriving DecidableEq, Repr

/-- Whether the exception is an instance of Python's `OSError` class.
`FileNotFoundError` subclasses `OSError`; `ValueError` and `RuntimeError`
do not. -/
def PyErr.isOSErrorClass : PyErr → Bool
  | .fileNotFoundError => true
  | _ => false

/-! ## Path-string utilities (pathlib / str operations used by the code) -/

/-- Python `s.split("/")`. Never returns the empty list. -/
def splitSlash : Name → List Name
  | [] => [[]]
  | c :: rest =>
    match splitSlash rest with
    | [] => [[c]]
    | s :: ss => if c = '/' then [] :: s :: ss else (c :: s) :: ss

/-- Python `"/".join(l)`. -/
def joinSlash : List Name → Name
  | [] => []
  | [s] => s
  | s :: t :: rest => s ++ '/' :: joinSlash (t :: rest)

/-- Python `s.rstrip("/")`. -/
def rstripSlash (s : Name) : Name := (s.reverse.dropWhile (fun c => c = '/')).reverse

/-- Python `s.endswith("/")`. -/
def endsSlash (s : Name) : Bool := s.getLast? == some '/'

/-- The root part of `PurePosixPath(s).parts`: `"//"` for exactly two leading
slashes (POSIX treats it specially), `"/"` for one or at least three, nothing
for a relative path. -/
def pyRoot (s : Name) : List Name :=
  if ['/', '/'].isPrefixOf s && !(['/', '/', '/'].isPrefixOf s) then [['/', '/']]
  else if ['/'].isPrefixOf s then [['/']]
  else []

/-- The non-root parts of `PurePosixPath(s).parts`: pathlib drops empty
segments (duplicate or trailing slashes) and `"."` segments, keeping `".."`. -/
def relSegs (s : Name) : List Name :=
  (splitSlash s).filter (fun seg => decide (seg ≠ [] ∧ seg ≠ ['.']))

/-- `PurePosixPath(s).parts`. -/
def pyParts (s : Name) : List Name := pyRoot s ++ relSegs s

/-- `PurePosixPath(s).name` (the final non-root component, `""` if none). -/
def pyNameOf (s : Name) : Name := ((relSegs s).getLast?).getD []

/-- The index of the last `'.'` in `n`, if any (Python `n.rfind('.')`). -/
def lastDotIdx (n : Name) : Option Nat :=
  (List.range n.length).foldl (fun acc i => if n.get? i = some '.' then some i else acc) none

/-- `PurePosixPath(s).suffix`: `name[i:]` for the last dot index `i` with
`0 < i < len(name) - 1`, else `""`. -/
def pySuffix (s : Name) : Name :=
  let n := pyNameOf s
  match lastDotIdx n with
  | some i => if 0 < i ∧ i < n.length - 1 then n.drop i else []
  | none => []

/-- `file_path.suffix.lower()`, the registry's lookup key. -/
def suffixLower (s : Name) : Name := lowerName (pySuffix s)

/-! ## `ExtractionResult` (asset_extractor.py lines 15-58) -/

/-- The filesystem facts `ExtractionResult.validate` consults, as oracles. -/
structure FsView where
  pathExists : FsPath → Bool
  isDirectory : FsPath → Bool
  isRegularFile : FsPath → Bool
  /-- `any(path.iterdir())`: the directory has at least one entry. -/
  hasEntries : FsPath → Bool

/-- `ExtractionResult`: `fatdata_path` plus the `music_paths` list
(constructor default `[]`). -/
structure ExtractionRes where
  fatdata_path : FsPath
  music_paths : List FsPath := []
  deriving DecidableEq, Repr

/-- `ExtractionResult.has_music`: `bool(self.music_paths)`. -/
def ExtractionRes.has_music (r : ExtractionRes) : Bool := !r.music_paths.isEmpty

/-- `ExtractionResult.validate`. The Python method mutates `self` and returns
`None`; the embedding returns the updated result, or the raised error. -/
def ExtractionRes.validate (fs : FsView) (r : ExtractionRes) : Except PyErr ExtractionRes :=
  if !fs.pathExists r.fatdata_path then .error .fileNotFoundError
  else if !fs.isDirectory r.fatdata_path then .error .fileNotFoundError
  else if !fs.hasEntries r.fatdata_path then .error .fileNotFoundError
  else
    let invalid := r.music_paths.filter
      (fun p => !fs.pathExists p || !fs.isRegularFile p)
    if !invalid.isEmpty then
      .ok { r with music_paths := r.music_paths.filter (fun p => decide (p ∉ invalid)) }
    else .ok r

/-! ## Registry and top-level dispatch (asset_extractor.py lines 106-219) -/

/-- A source file: its path string plus abstract content (the bytes a
handler's `can_handle` inspects), of an arbitrary type `α`. -/
structure SrcFile (α : Type u) where
  path : Name
  payload : α

/-- A format handler: the `{can_handle, extract_fatdata}` capability set
consulted by the registry (the dynamic string-to-class indirection of the
source has no behavioral content and is elided). -/
structure Handler (α : Type u) where
  can_handle : SrcFile α → Bool
  run_extract : SrcFile α → FsPath → Except PyErr ExtractionRes

/-- `AssetExtractorRegistry._handlers`: an extension-keyed mapping. A Python
dict update is modelled by prepending; lookup takes the first (most recent)
binding for a key. -/
abbrev Registry (α : Type u) := List (Name × Handler α)

/-- Dict lookup `self._handlers.get(extension)`. -/
def lookupExt (reg : Registry α) (ext : Name) : Option (Handler α) :=
  (reg.find? (fun kv => kv.1 == ext)).map Prod.snd

/-- `AssetExtractorRegistry.register_handler`: stores under `extension.lower()`. -/
def register_handler (reg : Registry α) (ext : Name) (h : Handler α) : Registry α :=
  (lowerName ext, h) :: reg

/-- `AssetExtractorRegistry._register_default_handlers`: exactly the `".zip"`
and `".iso"` bindings. -/
def defaultRegistry (zipH isoH : Handler α) : Registry α :=
  [(".zip".toList, zipH), (".iso".toList, isoH)]

/-- `AssetExtractorRegistry.get_handler`: lower-case the suffix, look the key
up, and return the handler only if its `can_handle` accepts the file. -/
def get_handler (reg : Registry α) (f : SrcFile α) : Option (Handler α) :=
  match lookupExt reg (suffixLower f.path) with
  | some h => if h.can_handle f then some h else none
  | none => none

/-- Top-level `extract_fatdata` (asset_extractor.py lines 163-209). `fs` is
the filesystem before the call (source existence check); `fsAfter` is the
filesystem the post-extraction `result.validate()` observes. The
`try/except` merely logs and re-raises, so handler errors pass through. -/
def extract_fatdata (fs fsAfter : FsView) (reg : Registry α) (f : SrcFile α)
    (out : FsPath) : Except PyErr ExtractionRes :=
  if !fs.pathExists (pyParts f.path) then .error .fileNotFoundError
  else
    match get_handler reg f with
    | none => .error .valueError
    | some h => (h.run_extract f out).bind (fun r => r.validate fsAfter)

/-! ## ZIP handler (handlers/zip_handler.py)

A ZIP archive is modelled by its `namelist()`: the list of entry-name strings
in central-directory order. Entries ending in `"/"` are pure directory
markers. Reads of entry bytes are not modelled (bytes are written verbatim);
the embedding records, for each extracted entry, the destination path. -/

/-- `"fatdata"`, the lower-cased target directory name. -/
def fatdataLower : Name := "fatdata".toList

/-- `"fatdata"`, the fixed output subdirectory name (`output_dir / "fatdata"`). -/
def fatdataOut : Name := "fatdata".toList

/-- The directory paths the entry `name` contributes to `all_paths`
(zip_handler.py lines 31-37): for `parts = Path(name).parts` and each
`i ∈ [1, len(parts)]`, `dir_path = "/".join(parts[:i])` is added (after
`rstrip("/")`) when `dir_path.endswith("/") or i < len(parts)`. -/
def entryDirPaths (n : Name) : List Name :=
  let parts := pyParts n
  (List.range parts.length).filterMap (fun k =>
    let i := k + 1
    let d := joinSlash (parts.take i)
    if endsSlash d || decide (i < parts.length) then some (rstripSlash d) else none)

/-- Adding to the `all_paths` set, modelled as an insertion-ordered
duplicate-free list. (The source iterates a Python `set`, whose order is
unspecified; every property proved below is independent of that order.) -/
def insertNew (acc : List Name) (x : Name) : List Name :=
  if x ∈ acc then acc else acc ++ [x]

/-- The `all_paths` set of zip_handler.py lines 30-37. -/
def allDirPaths (names : List Name) : List Name :=
  names.foldl (fun acc n => (entryDirPaths n).foldl insertNew acc) []

/-- The case-insensitive segment test `part.lower() == "fatdata"`. -/
def segMatches (seg : Name) : Bool := lowerName seg == fatdataLower

/-- Python `list.index(x)`: index of the first element equal to `x`. -/
def pyIndex : List Name → Name → Nat
  | [], _ => 0
  | y :: ys, x => if y = x then 0 else pyIndex ys x + 1

/-- The inner loop of `ZipHandler.find_fatdata_path` (lines 40-48): scan the
segments of one candidate path; on the first case-insensitive `"fatdata"`
segment, return the path truncated just after `path_parts.index(part)`. -/
def findInPath (path : Name) : Option Name :=
  let ps := splitSlash path
  ((ps.find? segMatches).map (fun part => joinSlash (ps.take (pyIndex ps part + 1))))

/-- `ZipHandler.find_fatdata_path` on a readable archive. -/
def ZipHandler.find_fatdata_path (names : List Name) : Option Name :=
  (allDirPaths names).findSome? findInPath

/-- The file entries kept for extraction (zip_handler.py lines 68-74):
entries at or under `fatdata_path` that are not directory markers. -/
def keptFiles (fat : Name) (names : List Name) : List Name :=
  names.filter (fun n =>
    ((fat ++ ['/']).isPrefixOf n || n == fat) && !(endsSlash n))

/-- The relative path of one kept entry (lines 86-91): strip
`fatdata_path + "/"`, or fall back to `Path(file_name).name`. -/
def relPart (fat : Name) (n : Name) : Name :=
  if (fat ++ ['/']).isPrefixOf n then n.drop (fat.length + 1) else pyNameOf n

/-- `target_path = output_fatdata_dir / relative_path` (line 94), with
pathlib's join semantics: a relative path with a root replaces the base. -/
def targetSegs (out : FsPath) (fat : Name) (n : Name) : FsPath :=
  let rel := relPart fat n
  if ['/'].isPrefixOf rel then pyParts rel else (out ++ [fatdataOut]) ++ pyParts rel

/-- The destination paths written by the extraction loop, in order. -/
def extractWrites (fat : Name) (names : List Name) (out : FsPath) : List FsPath :=
  (keptFiles fat names).map (targetSegs out fat)

/-- `ZipHandler.extract_fatdata` (lines 56-112), returning the list of
destination paths written. The body from line 65 on runs inside
`try ... except BadZipFile ... except OSError`, and the `FileNotFoundError`
raised at line 77 ("No files found in FATDATA directory") is an `OSError`
instance, so it is caught and re-raised as `RuntimeError` ("Failed to
extract files..."). The `FileNotFoundError` of line 60 is raised before the
`try` and propagates unchanged. -/
def ZipHandler.extract_fatdata (names : List Name) (out : FsPath) :
    Except PyErr (List FsPath) :=
  match ZipHandler.find_fatdata_path names with
  | none => .error .fileNotFoundError
  | some fat =>
    let inner : Except PyErr (List FsPath) :=
      if (keptFiles fat names).isEmpty then .error .fileNotFoundError
      else .ok (extractWrites fat names out)
    match inner with
    | .error e =>
      if e.isOSErrorClass then .error (.runtimeError .zipOsWrapped) else .error e
    | .ok w => .ok w

/-- Operating-system resolution of `"."` and `".."` segments, applied when a
written path is opened: `".."` removes the preceding segment. -/
def resolveDots (p : FsPath) : FsPath :=
  p.foldl (fun acc seg =>
    if seg = "..".toList then acc.dropLast
    else if seg = ".".toList then acc
    else acc ++ [seg]) []

/-- The set of directory paths described by claim C4's words: every entry
contributes the joins of the prefixes of its parts, where the entry's own
full path also counts as a directory when the entry is a pure
directory-marker (name ending in `"/"`). Stated from the claim, for
comparison with the source's `allDirPaths`. -/
def claimedDirPaths (names : List Name) : List Name :=
  names.flatMap (fun n =>
    let parts := pyParts n
    let bound := if endsSlash n then parts.length else parts.length - 1
    (List.range bound).map (fun k => joinSlash (parts.take (k + 1))))

/-! ## ISO handler (handlers/iso_handler.py)

A readable ISO image is modelled by its directory tree as pycdlib exposes it:
each node has a decoded `file_identifier()` and is a file or a directory.
`list_children` also yields the `"."` and `".."` pseudo-entries; the model
permits children with those names anywhere. -/

/-- One node of the ISO directory tree. -/
inductive IsoTree where
  | file (nm : Name)
  | dir (nm : Name) (children : List IsoTree)

/-- The decoded `file_identifier()` of a node. -/
def IsoTree.nodeName : IsoTree → Name
  | .file n => n
  | .dir n _ => n

/-- `child.is_dir()`. -/
def IsoTree.isDirNode : IsoTree → Bool
  | .file _ => false
  | .dir _ _ => true

/-- `"FATDATA"`, the upper-cased comparison target. -/
def fatdataUpper : Name := "FATDATA".toList

/-- `IsoHandler.find_fatdata_path` (lines 27-47) on a readable image with
root entries `root`: scan `list_children(iso_path="/")`; on the first child
whose decoded identifier upper-cases to `"FATDATA"`, return `"/FATDATA"`
(no `is_dir` test is performed); else `None`. -/
def IsoHandler.find_fatdata_path (root : List IsoTree) : Option Name :=
  (root.find? (fun c => upperName c.nodeName == fatdataUpper)).map
    (fun _ => "/FATDATA".toList)

/-- `child_name in (".", "..")`. -/
def isPseudo (n : Name) : Bool := n == ".".toList || n == "..".toList

/-- A filesystem side effect of extraction. -/
inductive FsOp where
  | mkdirOp (p : FsPath)
  | writeOp (p : FsPath)
  deriving DecidableEq, Repr

/-- The path an operation touches. -/
def FsOp.opPath : FsOp → FsPath
  | .mkdirOp p => p
  | .writeOp p => p

/-- `_extract_directory_recursive` (iso_handler.py lines 75-107) applied to
the children of a directory, emitting filesystem operations in program
order: skip `"."`/`".."`; for a directory child, create
`output_dir / child_name.lower()` then recurse into it; for a file child,
stream its bytes to `output_dir / child_name.lower()`. -/
def extractOps : List IsoTree → FsPath → List FsOp
  | [], _ => []
  | .file n :: ts, out =>
    (if isPseudo n then [] else [.writeOp (out ++ [lowerName n])]) ++ extractOps ts out
  | .dir n cs :: ts, out =>
    (if isPseudo n then []
     else .mkdirOp (out ++ [lowerName n]) :: extractOps cs (out ++ [lowerName n]))
      ++ extractOps ts out

/-- The write operations of an operation list, in order. -/
def writePaths (ops : List FsOp) : List FsPath :=
  ops.filterMap (fun op => match op with | .writeOp p => some p | _ => none)

/-- The mkdir operations of an operation list, in order. -/
def mkdirPaths (ops : List FsOp) : List FsPath :=
  ops.filterMap (fun op => match op with | .mkdirOp p => some p | _ => none)

/-- The source-relative name paths of the non-pseudo file nodes reachable
below a children list, in depth-first program order (a specification-side
description of the tree, for comparison with `extractOps`). -/
def filesUnder : List IsoTree → List (List Name)
  | [] => []
  | .file n :: ts => (if isPseudo n then [] else [[n]]) ++ filesUnder ts
  | .dir n cs :: ts =>
    (if isPseudo n then [] else (filesUnder cs).map (fun rp => n :: rp)) ++ filesUnder ts

/-- The source-relative name paths of the non-pseudo directory nodes
reachable below a children list, in depth-first program order. -/
def dirsUnder : List IsoTree → List (List Name)
  | [] => []
  | .file _ :: ts => dirsUnder ts
  | .dir n cs :: ts =>
    (if isPseudo n then [] else [n] :: (dirsUnder cs).map (fun rp => n :: rp))
      ++ dirsUnder ts

/-- Every operation's path properly extends a directory only after that
directory was created: wherever `ops = pre ++ op :: post`, every path `q`
that properly extends `base` and is properly extended by `op`'s path has a
`mkdir q` among the earlier operations `pre`. -/
def ancestorsBefore (base : FsPath) (ops : List FsOp) : Prop :=
  ∀ pre op post, ops = pre ++ op :: post →
    ∀ q, base <+: q → q ≠ base → q <+: op.opPath → q ≠ op.opPath →
      FsOp.mkdirOp q ∈ pre

/-! ## CUE/BIN handler (handlers/cue_bin_handler.py)

The external converter (bchunk) is modelled by its observable behavior: the
launch either fails (`subprocess.SubprocessError`) or runs to completion
with an exit code and a set of file names created in the scratch directory.
The delegated ISO extraction is modelled by its outcome on the produced
image: `IsoHandler.extract_fatdata` either raises, or succeeds returning
`ExtractionResult(fatdata_path=output_dir / "fatdata")` with no music paths. -/

/-- One completed run of the external converter. -/
structure BchunkRun where
  exitCode : Int
  /-- Names of the files the run created in the scratch directory. -/
  outputs : List Name
  deriving DecidableEq, Repr

/-- The observable behavior of `subprocess.run` on the bchunk command. -/
inductive BchunkBehavior where
  | ran (r : BchunkRun)
  | launchFailed
  deriving DecidableEq, Repr

/-- Python `sorted` on same-directory path names: lexicographic by code point. -/
def lexLe : Name → Name → Bool
  | [], _ => true
  | _ :: _, [] => false
  | a :: as, b :: bs => if a = b then lexLe as bs else decide (a < b)

/-- Insertion into a sorted list (the embedding of `sorted`). -/
def insertSorted (x : Name) : List Name → List Name
  | [] => [x]
  | y :: ys => if lexLe x y then x :: y :: ys else y :: insertSorted x ys

/-- `sorted(output_dir.glob("track*"))` (line 150): the created file names
that start with `"track"`, sorted. -/
def globTracks (outputs : List Name) : List Name :=
  (outputs.filter (fun f => "track".toList.isPrefixOf f)).foldr insertSorted []

/-- The classification loop of `_convert_with_bchunk` (lines 146-156):
`file.suffix.lower() == ".iso"` (re)binds `iso_path`, `".wav"`/`".cdr"`
appends to `audio_tracks`, anything else is ignored. -/
def classifyTracks (outputs : List Name) : Option Name × List Name :=
  (globTracks outputs).foldl (fun acc f =>
    let sfx := suffixLower f
    if sfx = ".iso".toList then (some f, acc.2)
    else if sfx = ".wav".toList ∨ sfx = ".cdr".toList then (acc.1, acc.2 ++ [f])
    else acc) (none, [])

/-- `CueBinHandler._convert_with_bchunk` (lines 115-161). A non-zero exit
status is logged as a warning only (line 142-144); the returned
classification depends solely on the files found in the scratch directory. -/
def convert_with_bchunk (b : BchunkBehavior) : Except PyErr (Option Name × List Name) :=
  match b with
  | .launchFailed => .error (.runtimeError .bchunkRunFailed)
  | .ran r => .ok (classifyTracks r.outputs)

/-- `"audio"`, the fixed audio output subdirectory name. -/
def audioOut : Name := "audio".toList

/-- A CUE/BIN extraction outcome: the result object plus the filesystem
operations the handler itself performed in the caller's output directory
(the delegated ISO extraction's writes are inside `output_dir/fatdata` and
are not repeated here). -/
structure CueOutcome where
  res : ExtractionRes
  ops : List FsOp
  deriving Repr

/-- `CueBinHandler.extract_fatdata` (lines 63-113). `canOk` is the
`can_handle` re-check of line 65; `isoDelegate` is the outcome of
`self.iso_handler.extract_fatdata(iso_path, output_dir)` on the produced
image, returning the `fatdata_path` it would report (its result always
carries an empty `music_paths`). If audio tracks were classified, the
handler creates `output_dir/audio`, copies each track preserving its name,
and records the destination paths on the result. -/
def CueBinHandler.extract_fatdata (canOk : Bool) (b : BchunkBehavior)
    (isoDelegate : Name → Except PyErr FsPath) (out : FsPath) :
    Except PyErr CueOutcome :=
  if !canOk then .error .valueError
  else
    match convert_with_bchunk b with
    | .error e => .error e
    | .ok (isoP, audio) =>
      match isoP with
      | none => .error (.runtimeError .noDataTrack)
      | some isoFile =>
        match isoDelegate isoFile with
        | .error e => .error e
        | .ok fatPath =>
          if audio.isEmpty then .ok ⟨{ fatdata_path := fatPath }, []⟩
          else
            .ok ⟨{ fatdata_path := fatPath,
                   music_paths := audio.map (fun t => out ++ [audioOut, t]) },
                 .mkdirOp (out ++ [audioOut])
                   :: audio.map (fun t => FsOp.writeOp (out ++ [audioOut, t]))⟩

/-! ## Theorems -/

/-- C10: `ExtractionResult.validate` raises `FileNotFoundError` exactly when
the target path is missing, not a directory, or empty; on normal return the
surviving `music_paths` are precisely the entries referencing an existing
regular file (invalid entries dropped silently, nothing raised for them),
and `has_music` is true exactly when some entry survives. -/
theorem validate_ok_form (fs : FsView) (r : ExtractionRes)
    (h1 : fs.pathExists r.fatdata_path = true) (h2 : fs.isDirectory r.fatdata_path = true)
    (h3 : fs.hasEntries r.fatdata_path = true) :
    r.validate fs = .ok { r with
      music_paths := r.music_paths.filter (fun p => fs.pathExists p && fs.isRegularFile p) } := by
  have hfilter : r.music_paths.filter
      (fun p => decide (p ∉ r.music_paths.filter
        (fun p => !fs.pathExists p || !fs.isRegularFile p)))
      = r.music_paths.filter (fun p => fs.pathExists p && fs.isRegularFile p) := by
    apply List.filter_congr
    intro x hx
    by_cases hv : (fs.pathExists x && fs.isRegularFile x) = true
    · simp only [hv]
      simp only [Bool.and_eq_true] at hv
      simp [List.mem_filter, hv.1, hv.2]
    · simp only [Bool.not_eq_true] at hv
      simp only [hv]
      simp [List.mem_filter, hx]
      simpa using hv
  unfold ExtractionRes.validate
  rw [h1, h2, h3]
  by_cases hinv : (r.music_paths.filter
      (fun p => !fs.pathExists p || !fs.isRegularFile p)) = []
  · have hall : ∀ p ∈ r.music_paths, (fs.pathExists p && fs.isRegularFile p) = true := by
      intro p hp
      have := (List.filter_eq_nil_iff.mp hinv) p hp
      simp only [Bool.or_eq_true, Bool.not_eq_true', not_or] at this
      simp [this.1, this.2]
    simp only [hinv, List.isEmpty_nil, Bool.not_true, Bool.false_eq_true, if_false,
      Bool.not_false, if_true]
    rw [List.filter_eq_self.mpr hall]
  · have hne : (r.music_paths.filter
        (fun p => !fs.pathExists p || !fs.isRegularFile p)).isEmpty = false := by
      simpa [List.isEmpty_iff] using hinv
    simp only [hne, Bool.not_true, Bool.not_false, if_true, Bool.false_eq_true, if_false]
    rw [hfilter]

theorem validate_err_form (fs : FsView) (r : ExtractionRes)
    (h : ¬(fs.pathExists r.fatdata_path = true ∧ fs.isDirectory r.fatdata_path = true ∧
      fs.hasEntries r.fatdata_path = true)) :
    r.validate fs = .error .fileNotFoundError := by
  unfold ExtractionRes.validate
  cases h1 : fs.pathExists r.fatdata_path <;>
    cases h2 : fs.isDirectory r.fatdata_path <;>
      cases h3 : fs.hasEntries r.fatdata_path <;>
        simp_all

/-- C10: `ExtractionResult.validate` raises `FileNotFoundError` exactly when
the target path is missing, not a directory, or empty; on normal return the
surviving `music_paths` are precisely the entries referencing an existing
regular file (invalid entries dropped silently, nothing raised for them),
and `has_music` is true exactly when some entry survives. -/
theorem validate_spec (fs : FsView) (r : ExtractionRes) :
    ((∃ e, r.validate fs = .error e) ↔
      ¬(fs.pathExists r.fatdata_path = true ∧ fs.isDirectory r.fatdata_path = true ∧
        fs.hasEntries r.fatdata_path = true))
    ∧ (∀ e, r.validate fs = .error e → e = .fileNotFoundError)
    ∧ (∀ r', r.validate fs = .ok r' →
        r'.fatdata_path = r.fatdata_path
        ∧ r'.music_paths =
            r.music_paths.filter (fun p => fs.pathExists p && fs.isRegularFile p)
        ∧ (∀ p ∈ r'.music_paths, fs.pathExists p = true ∧ fs.isRegularFile p = true)
        ∧ (r'.has_music = true ↔ r'.music_paths ≠ [])) := by
  by_cases hc : fs.pathExists r.fatdata_path = true ∧ fs.isDirectory r.fatdata_path = true ∧
      fs.hasEntries r.fatdata_path = true
  · have hok := validate_ok_form fs r hc.1 hc.2.1 hc.2.2
    refine ⟨⟨?_, fun hn => absurd hc hn⟩, ?_, fun r' hr' => ?_⟩
    · rintro ⟨e, he⟩
      rw [hok] at he
      cases he
    · intro e he
      rw [hok] at he
      cases he
    rw [hok] at hr'
    cases hr'
    refine ⟨rfl, rfl, ?_, ?_⟩
    · intro p hp
      have := (List.mem_filter.mp hp).2
      simp only [Bool.and_eq_true] at this
      exact this
    · simp [ExtractionRes.has_music, List.isEmpty_iff]
  · have herr := validate_err_form fs r hc
    refine ⟨⟨fun _ => hc, fun _ => ⟨.fileNotFoundError, herr⟩⟩,
      fun e he => by rw [herr] at he; cases he; rfl, fun r' hr' => by rw [herr] at hr'; cases hr'⟩

/-- C10 witness: a result whose single music path references a non-file is
validated successfully with that entry dropped. -/
theorem validate_spec_witness :
    (∀ p ∈ ([] : List FsPath), (fun _ => true : FsPath → Bool) p = true ∧
      (fun _ => false : FsPath → Bool) p = true) ∧
    ((({ fatdata_path := [], music_paths := [] } : ExtractionRes).has_music = true) ↔
      (([] : List FsPath) ≠ [])) := by
  have h := (validate_spec ⟨fun _ => true, fun _ => true, fun _ => false, fun _ => true⟩
    { fatdata_path := [], music_paths := [[['x']]] }).2.2
    { fatdata_path := [], music_paths := [] } (by rfl)
  exact ⟨h.2.2.1, by simpa using h.2.2.2⟩

/-- C1: on an existing source file, the registry resolves the handler by the
lower-cased suffix and dispatches only when that handler's `can_handle`
accepts the file; if the suffix has no binding, or the bound handler's
`can_handle` rejects, the top-level `extract_fatdata` returns
`ValueError` (UnsupportedFormat) — for every possible behavior of every
registered handler's extraction function, so no handler's `extract_fatdata`
is ever consulted, and no other failure can occur in that case. -/
theorem registry_dispatch_spec {α : Type u} (fs fsAfter : FsView) (reg : Registry α)
    (f : SrcFile α) (out : FsPath) (hex : fs.pathExists (pyParts f.path) = true) :
    (∀ h, get_handler reg f = some h →
      lookupExt reg (suffixLower f.path) = some h ∧ h.can_handle f = true)
    ∧ ((lookupExt reg (suffixLower f.path) = none ∨
        (∃ h, lookupExt reg (suffixLower f.path) = some h ∧ h.can_handle f = false)) →
      extract_fatdata fs fsAfter reg f out = .error .valueError) := by
  constructor
  · intro h hget
    unfold get_handler at hget
    cases hlook : lookupExt reg (suffixLower f.path) with
    | none => rw [hlook] at hget; cases hget
    | some h' =>
      rw [hlook] at hget
      dsimp only at hget
      by_cases hch : h'.can_handle f = true
      · rw [if_pos hch] at hget
        cases hget
        exact ⟨rfl, hch⟩
      · rw [if_neg hch] at hget
        cases hget
  · intro hmiss
    unfold extract_fatdata
    rw [hex]
    have hnone : get_handler reg f = none := by
      unfold get_handler
      rcases hmiss with hn | ⟨h, hl, hc⟩
      · rw [hn]
      · rw [hl]
        dsimp only
        rw [if_neg (by simp [hc])]
    rw [hnone]
    rfl

/-- C1 witness: an empty registry yields `ValueError` on an existing file. -/
theorem registry_dispatch_spec_witness :
    extract_fatdata ⟨fun _ => true, fun _ => true, fun _ => true, fun _ => true⟩
        ⟨fun _ => true, fun _ => true, fun _ => true, fun _ => true⟩
        ([] : Registry Unit) ⟨"game.rar".toList, ()⟩ [] = .error .valueError :=
  (registry_dispatch_spec ⟨fun _ => true, fun _ => true, fun _ => true, fun _ => true⟩
    ⟨fun _ => true, fun _ => true, fun _ => true, fun _ => true⟩
    ([] : Registry Unit) ⟨"game.rar".toList, ()⟩ [] (by rfl)).2 (Or.inl rfl)

/-- C3: the default registry's keys are exactly `".zip"` and `".iso"`; for an
existing source file whose lower-cased suffix is `".cue"` or `".bin"`, the
top-level `extract_fatdata` returns `ValueError` whatever the two default
handlers, the filesystem (sibling CUE/BIN present or not) and the converter's
resolvability do — the `CueBinHandler` is never consulted — while registering
a handler for that extension at runtime makes dispatch select it whenever its
`can_handle` accepts the file. -/
theorem default_registry_rejects_cue_bin {α : Type u} (zipH isoH : Handler α)
    (fs fsAfter : FsView) (f : SrcFile α) (out : FsPath)
    (hex : fs.pathExists (pyParts f.path) = true)
    (hsfx : suffixLower f.path = ".cue".toList ∨ suffixLower f.path = ".bin".toList) :
    (defaultRegistry zipH isoH).map Prod.fst = [".zip".toList, ".iso".toList]
    ∧ extract_fatdata fs fsAfter (defaultRegistry zipH isoH) f out = .error .valueError
    ∧ (∀ ext (ch : Handler α), lowerName ext = suffixLower f.path → ch.can_handle f = true →
        get_handler (register_handler (defaultRegistry zipH isoH) ext ch) f = some ch) := by
    have hlook : lookupExt (defaultRegistry zipH isoH) (suffixLower f.path) = none := by
      unfold lookupExt defaultRegistry
      rcases hsfx with h | h <;> rw [h] <;> rfl
    refine ⟨rfl, ?_, ?_⟩
    · exact (registry_dispatch_spec fs fsAfter (defaultRegistry zipH isoH) f out hex).2
        (Or.inl hlook)
    · intro ext ch hext hch
      have hlk : lookupExt (register_handler (defaultRegistry zipH isoH) ext ch)
          (suffixLower f.path) = some ch := by
        unfold lookupExt register_handler
        rw [List.find?_cons_of_pos _ (by simp [hext])]
        rfl
      unfold get_handler
      rw [hlk]
      dsimp only
      rw [if_pos hch]

/-- C3 witness: with trivial default handlers and an existing `game.cue`,
dispatch yields `ValueError`, and a runtime `.cue` registration is selected. -/
theorem default_registry_rejects_cue_bin_witness :
    extract_fatdata ⟨fun _ => true, fun _ => true, fun _ => true, fun _ => true⟩
        ⟨fun _ => true, fun _ => true, fun _ => true, fun _ => true⟩
        (defaultRegistry ⟨fun _ => true, fun _ _ => .error .valueError⟩
          ⟨fun _ => true, fun _ _ => .error .valueError⟩)
        (⟨"game.cue".toList, ()⟩ : SrcFile Unit) [] = .error .valueError :=
  (default_registry_rejects_cue_bin
    ⟨fun _ => true, fun _ _ => .error .valueError⟩
    ⟨fun _ => true, fun _ _ => .error .valueError⟩
    ⟨fun _ => true, fun _ => true, fun _ => true, fun _ => true⟩
    ⟨fun _ => true, fun _ => true, fun _ => true, fun _ => true⟩
    (⟨"game.cue".toList, ()⟩ : SrcFile Unit) [] (by rfl) (Or.inl (by rfl))).2.1

/-- C5 (recording the code's actual behavior): when the ZIP handler locates a
FATDATA path but zero non-marker entries lie at or under it, the
`FileNotFoundError("No files found ...")` raised inside the `try` block is
caught by `except OSError` (`FileNotFoundError` is an `OSError`) and
re-raised, so `ZipHandler.extract_fatdata` fails with `RuntimeError`, not
with `FileNotFoundError` as the claim states. -/
theorem zip_empty_dir_runtime_error (names : List Name) (out : FsPath) (fat : Name)
    (hfind : ZipHandler.find_fatdata_path names = some fat)
    (hempty : keptFiles fat names = []) :
    ZipHandler.extract_fatdata names out = .error (.runtimeError .zipOsWrapped) := by
  unfold ZipHandler.extract_fatdata
  rw [hfind]
  dsimp only
  rw [hempty]
  rfl

/-- C5 witness: the archive `["FATDATA/sub/"]` locates `FATDATA`, keeps no
file entry, and extraction reports `RuntimeError`. -/
theorem zip_empty_dir_runtime_error_witness :
    ZipHandler.extract_fatdata ["FATDATA/sub/".toList] ["out".toList]
      = .error (.runtimeError .zipOsWrapped) :=
  zip_empty_dir_runtime_error ["FATDATA/sub/".toList] ["out".toList]
    "FATDATA".toList (by rfl) (by rfl)

theorem writePaths_cons_mkdir (q : FsPath) (l : List FsOp) :
    writePaths (.mkdirOp q :: l) = writePaths l := by
  simp [writePaths, List.filterMap_cons]

theorem writePaths_cons_write (q : FsPath) (l : List FsOp) :
    writePaths (.writeOp q :: l) = q :: writePaths l := by
  simp [writePaths, List.filterMap_cons]

theorem writePaths_of_writes (g : Name → FsPath) (l : List Name) :
    writePaths (l.map (fun t => FsOp.writeOp (g t))) = l.map g := by
  induction l with
  | nil => rfl
  | cons a as ih => simpa [writePaths_cons_write] using ih

theorem mkdirPaths_cons_mkdir (q : FsPath) (l : List FsOp) :
    mkdirPaths (.mkdirOp q :: l) = q :: mkdirPaths l := by
  simp [mkdirPaths, List.filterMap_cons]

theorem mkdirPaths_cons_write (q : FsPath) (l : List FsOp) :
    mkdirPaths (.writeOp q :: l) = mkdirPaths l := by
  simp [mkdirPaths, List.filterMap_cons]

/-- C7 counterexample: on an image whose root holds a FILE named `FATDATA`
(and no directory of that name), `IsoHandler.find_fatdata_path` still
returns a path — the code never tests `is_dir()` — so the claim's
"some root-directory entry is a directory whose decoded name matches" is not
equivalent to the code's behavior. -/
theorem iso_find_ignores_dir_flag_cx :
    (IsoHandler.find_fatdata_path [IsoTree.file "FATDATA".toList]).isSome = true
    ∧ ¬ ∃ c ∈ [IsoTree.file "FATDATA".toList],
        c.isDirNode = true ∧ upperName c.nodeName = fatdataUpper := by
  refine ⟨rfl, ?_⟩
  rintro ⟨c, hc, hdir, -⟩
  rw [List.mem_singleton] at hc
  subst hc
  cases hdir

/-- C7 (amended): `IsoHandler.find_fatdata_path` returns the canonical
uppercase `"/FATDATA"` iff some root entry — file or directory — has a
decoded name that upper-cases to `"FATDATA"`; it returns nothing otherwise,
and only root entries are consulted (the embedding takes just the root
listing). -/
theorem iso_find_iff_root_name_match (root : List IsoTree) :
    ((IsoHandler.find_fatdata_path root).isSome ↔
      ∃ c ∈ root, upperName c.nodeName = fatdataUpper)
    ∧ (∀ r, IsoHandler.find_fatdata_path root = some r → r = "/FATDATA".toList) := by
  constructor
  · unfold IsoHandler.find_fatdata_path
    cases hf : List.find? (fun c => upperName c.nodeName == fatdataUpper) root with
    | none =>
      simp only [Option.map_none', Option.isSome_none]
      constructor
      · intro h
        cases h
      · rintro ⟨c, hc, hm⟩
        have := List.find?_eq_none.mp hf c hc
        simp [hm] at this
    | some c =>
      simp only [Option.map_some', Option.isSome_some, true_iff]
      have hc := List.mem_of_find?_eq_some hf
      have hp := List.find?_some hf
      exact ⟨c, hc, by simpa using hp⟩
  · intro r hr
    unfold IsoHandler.find_fatdata_path at hr
    rcases Option.map_eq_some'.mp hr with ⟨c, -, hr⟩
    exact hr.symm

/-- C7 witness: a root directory entry `FatData` is found as `"/FATDATA"`. -/
theorem iso_find_iff_root_name_match_witness :
    IsoHandler.find_fatdata_path [IsoTree.dir "FatData".toList []] = some "/FATDATA".toList := by
  have h := (iso_find_iff_root_name_match [IsoTree.dir "FatData".toList []]).2
  cases hf : IsoHandler.find_fatdata_path [IsoTree.dir "FatData".toList []] with
  | none => exact absurd hf (by decide)
  | some r => rw [h r hf]

/-- C6: with the CUE/BIN handler, the converter's exit status never by itself
changes the outcome (the result is a function of the files it produced);
when the delegate cannot itself produce the `"No data track found"` error
(the real `IsoHandler` cannot), extraction fails with that `RuntimeError`
exactly when no `.iso` file is among the classified outputs; when a data
track is present, the pipeline proceeds to the delegated ISO extraction,
whose outcome (success or any error) becomes the pipeline's outcome. -/
theorem cue_conversion_gate (canOk : Bool) (e₁ e₂ : Int) (os : List Name)
    (d : Name → Except PyErr FsPath) (out : FsPath) :
    (CueBinHandler.extract_fatdata canOk (.ran ⟨e₁, os⟩) d out
      = CueBinHandler.extract_fatdata canOk (.ran ⟨e₂, os⟩) d out)
    ∧ (canOk = true → (∀ t, d t ≠ .error (.runtimeError .noDataTrack)) →
        (CueBinHandler.extract_fatdata canOk (.ran ⟨e₁, os⟩) d out
            = .error (.runtimeError .noDataTrack) ↔ (classifyTracks os).1 = none))
    ∧ (canOk = true → ∀ t, (classifyTracks os).1 = some t →
        (∀ p, d t = .ok p →
          ∃ o, CueBinHandler.extract_fatdata canOk (.ran ⟨e₁, os⟩) d out = .ok o)
        ∧ (∀ e, d t = .error e →
          CueBinHandler.extract_fatdata canOk (.ran ⟨e₁, os⟩) d out = .error e)) := by
  refine ⟨rfl, ?_, ?_⟩
  · intro hcan hd
    subst hcan
    unfold CueBinHandler.extract_fatdata convert_with_bchunk
    dsimp only
    rw [if_neg (show ¬((!true : Bool) = true) from by decide)]
    cases hiso : (classifyTracks os).1 with
    | none => simp
    | some t =>
      dsimp only
      cases hdt : d t with
      | error e' =>
        dsimp only
        constructor
        · intro he
          cases he
          exact absurd hdt (hd t)
        · intro hn
          cases hn
      | ok p =>
        dsimp only
        cases haud : ((classifyTracks os).2).isEmpty <;> simp [haud]
  · intro hcan t hiso
    subst hcan
    unfold CueBinHandler.extract_fatdata convert_with_bchunk
    dsimp only
    rw [hiso]
    dsimp only
    constructor
    · intro p hdt
      rw [hdt]
      dsimp only
      cases haud : ((classifyTracks os).2).isEmpty <;> simp [haud]
    · intro e' hdt
      rw [hdt]
      rfl

/-- C6 witness: one run with exit code 7 and outputs `["track01.iso"]`, a
succeeding delegate; the no-data-track error does not occur. -/
theorem cue_conversion_gate_witness :
    ¬(CueBinHandler.extract_fatdata true (.ran ⟨7, ["track01.iso".toList]⟩)
        (fun _ => .ok ["out".toList, "fatdata".toList]) ["out".toList]
      = .error (.runtimeError .noDataTrack)) := by
  intro hcontra
  have := ((cue_conversion_gate true 7 7 ["track01.iso".toList]
    (fun _ => .ok ["out".toList, "fatdata".toList]) ["out".toList]).2.1 rfl
    (fun t he => Except.noConfusion he)).mp hcontra
  exact absurd this (by decide)

/-- C9: on a successful CUE/BIN extraction with `N` classified audio tracks,
exactly `N` copies land in `output_dir/audio` preserving the original file
names, and `music_paths` lists exactly those `N` destinations; with `N = 0`
no `audio` directory is created and the result carries no music paths. -/
theorem cue_audio_copy_spec (canOk : Bool) (e : Int) (os : List Name)
    (d : Name → Except PyErr FsPath) (out : FsPath) (t : Name) (audio : List Name)
    (p : FsPath) (hcan : canOk = true) (hcl : classifyTracks os = (some t, audio))
    (hd : d t = .ok p) :
    ∃ o, CueBinHandler.extract_fatdata canOk (.ran ⟨e, os⟩) d out = .ok o
      ∧ o.res.music_paths = audio.map (fun a => out ++ [audioOut, a])
      ∧ writePaths o.ops = audio.map (fun a => out ++ [audioOut, a])
      ∧ (writePaths o.ops).length = audio.length
      ∧ (audio = [] → o.res.music_paths = [] ∧ FsOp.mkdirOp (out ++ [audioOut]) ∉ o.ops)
      ∧ (audio ≠ [] → FsOp.mkdirOp (out ++ [audioOut]) ∈ o.ops) := by
  subst hcan
  unfold CueBinHandler.extract_fatdata convert_with_bchunk
  dsimp only
  rw [hcl]
  dsimp only
  rw [hd]
  cases audio with
  | nil =>
    exact ⟨_, rfl, rfl, rfl, rfl, fun _ => ⟨rfl, by simp⟩, fun h => absurd rfl h⟩
  | cons a as =>
    refine ⟨_, rfl, ?_, ?_, ?_, ?_, ?_⟩
    · rfl
    · rw [writePaths_cons_mkdir, writePaths_of_writes]
    · rw [writePaths_cons_mkdir, writePaths_of_writes]
      simp
    · intro h
      exact absurd h (List.cons_ne_nil a as)
    · intro _
      exact List.mem_cons_self _ _

/-- C9 witness: two audio tracks and a data track yield exactly two copies
under `audio/` with preserved names. -/
theorem cue_audio_copy_spec_witness :
    ∃ o, CueBinHandler.extract_fatdata true
        (.ran ⟨0, ["track01.iso".toList, "track02.wav".toList, "track03.cdr".toList]⟩)
        (fun _ => .ok ["out".toList, "fatdata".toList]) ["out".toList] = .ok o
      ∧ o.res.music_paths =
          ["track02.wav".toList, "track03.cdr".toList].map
            (fun a => ["out".toList] ++ [audioOut, a])
      ∧ writePaths o.ops =
          ["track02.wav".toList, "track03.cdr".toList].map
            (fun a => ["out".toList] ++ [audioOut, a])
      ∧ (writePaths o.ops).length = (["track02.wav".toList, "track03.cdr".toList]).length
      ∧ ((["track02.wav".toList, "track03.cdr".toList] : List Name) = [] →
          o.res.music_paths = [] ∧
            FsOp.mkdirOp (["out".toList] ++ [audioOut]) ∉ o.ops)
      ∧ ((["track02.wav".toList, "track03.cdr".toList] : List Name) ≠ [] →
          FsOp.mkdirOp (["out".toList] ++ [audioOut]) ∈ o.ops) :=
  cue_audio_copy_spec true 0
    ["track01.iso".toList, "track02.wav".toList, "track03.cdr".toList]
    (fun _ => .ok ["out".toList, "fatdata".toList]) ["out".toList]
    "track01.iso".toList ["track02.wav".toList, "track03.cdr".toList]
    ["out".toList, "fatdata".toList] rfl (by rfl) rfl

theorem foldl_resolveStep_of_noDots (p : FsPath)
    (h : ∀ seg ∈ p, seg ≠ "..".toList ∧ seg ≠ ".".toList) (acc : FsPath) :
    p.foldl (fun acc seg =>
      if seg = "..".toList then acc.dropLast
      else if seg = ".".toList then acc
      else acc ++ [seg]) acc = acc ++ p := by
  induction p generalizing acc with
  | nil => simp
  | cons s rest ih =>
    have hs := h s (List.mem_cons_self _ _)
    simp only [List.foldl_cons, if_neg hs.1, if_neg hs.2]
    rw [ih (fun seg hseg => h seg (List.mem_cons_of_mem _ hseg))]
    simp

theorem resolveDots_of_noDots (p : FsPath)
    (h : ∀ seg ∈ p, seg ≠ "..".toList ∧ seg ≠ ".".toList) :
    resolveDots p = p := by
  unfold resolveDots
  simpa using foldl_resolveStep_of_noDots p h []

theorem slashSlash_imp_slash (s : Name) (h : ['/', '/'].isPrefixOf s = true) :
    ['/'].isPrefixOf s = true := by
  cases s with
  | nil => cases h
  | cons a rest =>
    simp only [List.isPrefixOf, Bool.and_eq_true, beq_iff_eq] at h ⊢
    exact ⟨h.1, trivial⟩

theorem pyRoot_eq_nil_of_not_abs (s : Name) (h : (['/'].isPrefixOf s) = false) :
    pyRoot s = [] := by
  have h2 : (['/', '/'].isPrefixOf s && !(['/', '/', '/'].isPrefixOf s)) = false := by
    cases hpp : ['/', '/'].isPrefixOf s with
    | false => rfl
    | true => rw [slashSlash_imp_slash s hpp] at h; cases h
  unfold pyRoot
  rw [h2, h]
  rfl

theorem pyParts_ne_dot (s : Name) (p : Name) (hp : p ∈ pyParts s) : p ≠ ".".toList := by
  unfold pyParts at hp
  rcases List.mem_append.mp hp with hr | hrel
  · unfold pyRoot at hr
    split at hr <;> simp_all
  · have := (List.mem_filter.mp hrel).2
    simp only [decide_eq_true_eq] at this
    exact this.2

/-- C2 counterexample: the archive with entries `FATDATA/a.txt` and
`FATDATA/../../evil.txt` extracts successfully, and the second entry's
destination — `output_dir/fatdata` joined with a relative part containing
`..` — resolves outside `output_dir/fatdata` (indeed outside `output_dir`):
the write is not confined, refuting the claim as stated. -/
theorem zip_traversal_escape_cx :
    ZipHandler.extract_fatdata ["FATDATA/a.txt".toList, "FATDATA/../../evil.txt".toList]
        ["out".toList]
      = .ok [["out".toList, fatdataOut, "a.txt".toList],
             ["out".toList, fatdataOut, "..".toList, "..".toList, "evil.txt".toList]]
    ∧ ¬(["out".toList, fatdataOut] <+:
        resolveDots ["out".toList, fatdataOut, "..".toList, "..".toList, "evil.txt".toList]) := by
  constructor
  · rfl
  · decide

/-- C2 (amended): every destination written by `ZipHandler.extract_fatdata`
is `output_dir/fatdata` joined with the entry's relative part, so PROVIDED no
kept entry's relative part begins with a root (`/`) or contains a `..`
segment — and the output directory path itself contains none — every write
resolves to a path under `output_dir/fatdata`. (The unamended universal
claim fails: a relative part can smuggle `..`, see the counterexample.) -/
theorem zip_writes_confined (names : List Name) (out : FsPath) (ws : List FsPath)
    (hok : ZipHandler.extract_fatdata names out = .ok ws)
    (hout : ∀ seg ∈ out, seg ≠ "..".toList ∧ seg ≠ ".".toList)
    (hrel : ∀ fat, ZipHandler.find_fatdata_path names = some fat →
      ∀ n ∈ keptFiles fat names, (['/'].isPrefixOf (relPart fat n)) = false ∧
        "..".toList ∉ pyParts (relPart fat n)) :
    ∀ w ∈ ws, (out ++ [fatdataOut]) <+: resolveDots w := by
  unfold ZipHandler.extract_fatdata at hok
  cases hfind : ZipHandler.find_fatdata_path names with
  | none => rw [hfind] at hok; cases hok
  | some fat =>
    rw [hfind] at hok
    dsimp only at hok
    cases hkept : (keptFiles fat names).isEmpty with
    | true => rw [hkept] at hok; cases hok
    | false =>
      rw [hkept] at hok
      cases hok
      intro w hw
      rcases List.mem_map.mp hw with ⟨n, hn, rfl⟩
      have hr := hrel fat hfind n hn
      unfold targetSegs
      rw [if_neg (by simp [hr.1])]
      have hnodots : ∀ seg ∈ (out ++ [fatdataOut]) ++ pyParts (relPart fat n),
          seg ≠ "..".toList ∧ seg ≠ ".".toList := by
        intro seg hseg
        rcases List.mem_append.mp hseg with hseg | hseg
        · rcases List.mem_append.mp hseg with hseg | hseg
          · exact hout seg hseg
          · rw [List.mem_singleton] at hseg
            subst hseg
            exact ⟨by decide, by decide⟩
        · refine ⟨?_, pyParts_ne_dot _ _ hseg⟩
          intro hdd
          subst hdd
          exact hr.2 hseg
      rw [resolveDots_of_noDots _ hnodots]
      exact ⟨pyParts (relPart fat n), rfl⟩

/-- C2 witness: a benign archive's single write lands under
`output_dir/fatdata`. -/
theorem zip_writes_confined_witness :
    (["out".toList] ++ [fatdataOut]) <+:
      resolveDots ["out".toList, fatdataOut, "sub".toList, "x.txt".toList] := by
  refine zip_writes_confined ["FATDATA/sub/x.txt".toList] ["out".toList]
    [["out".toList, fatdataOut, "sub".toList, "x.txt".toList]] ?_ ?_ ?_
    ["out".toList, fatdataOut, "sub".toList, "x.txt".toList] ?_
  · rfl
  · decide
  · intro fat hfat
    rw [show ZipHandler.find_fatdata_path ["FATDATA/sub/x.txt".toList]
      = some "FATDATA".toList from rfl] at hfat
    cases hfat
    decide
  · exact List.mem_singleton.mpr rfl

theorem writePaths_nil : writePaths [] = [] := rfl

theorem mkdirPaths_nil : mkdirPaths [] = [] := rfl

theorem writePaths_append (ops₁ ops₂ : List FsOp) :
    writePaths (ops₁ ++ ops₂) = writePaths ops₁ ++ writePaths ops₂ :=
  List.filterMap_append _ _ _

theorem mkdirPaths_append (ops₁ ops₂ : List FsOp) :
    mkdirPaths (ops₁ ++ ops₂) = mkdirPaths ops₁ ++ mkdirPaths ops₂ :=
  List.filterMap_append _ _ _

theorem extractOps_writePaths : ∀ (cs : List IsoTree) (base : FsPath),
    writePaths (extractOps cs base)
      = (filesUnder cs).map (fun rp => base ++ rp.map lowerName)
  | [], _ => by simp [extractOps, filesUnder, writePaths_nil]
  | .file n :: ts, base => by
    simp only [extractOps, filesUnder]
    rw [writePaths_append, List.map_append, extractOps_writePaths ts base]
    congr 1
    by_cases hp : isPseudo n = true
    · simp [hp, writePaths_nil, mkdirPaths_nil]
    · rw [if_neg hp, if_neg hp, writePaths_cons_write]
      rfl
  | .dir n cs :: ts, base => by
    simp only [extractOps, filesUnder]
    rw [writePaths_append, List.map_append, extractOps_writePaths ts base]
    congr 1
    by_cases hp : isPseudo n = true
    · simp [hp, writePaths_nil, mkdirPaths_nil]
    · rw [if_neg hp, if_neg hp, writePaths_cons_mkdir,
        extractOps_writePaths cs (base ++ [lowerName n])]
      simp [List.map_map, Function.comp, List.append_assoc]

theorem extractOps_mkdirPaths : ∀ (cs : List IsoTree) (base : FsPath),
    mkdirPaths (extractOps cs base)
      = (dirsUnder cs).map (fun rp => base ++ rp.map lowerName)
  | [], _ => by simp [extractOps, dirsUnder, mkdirPaths_nil]
  | .file n :: ts, base => by
    simp only [extractOps, dirsUnder]
    rw [mkdirPaths_append, extractOps_mkdirPaths ts base]
    by_cases hp : isPseudo n = true
    · simp [hp, mkdirPaths_nil]
    · rw [if_neg hp, mkdirPaths_cons_write]
      rfl
  | .dir n cs :: ts, base => by
    simp only [extractOps, dirsUnder]
    rw [mkdirPaths_append, List.map_append, extractOps_mkdirPaths ts base]
    congr 1
    by_cases hp : isPseudo n = true
    · simp [hp, writePaths_nil, mkdirPaths_nil]
    · rw [if_neg hp, if_neg hp, mkdirPaths_cons_mkdir,
        extractOps_mkdirPaths cs (base ++ [lowerName n])]
      simp [List.map_map, Function.comp, List.append_assoc]

theorem append_split_at (A B pre post : List FsOp) (op : FsOp)
    (h : A ++ B = pre ++ op :: post) :
    (∃ t, A = pre ++ op :: t) ∨ (∃ pre2, pre = A ++ pre2 ∧ B = pre2 ++ op :: post) := by
  induction A generalizing pre with
  | nil =>
    right
    exact ⟨pre, rfl, h⟩
  | cons a A2 ih =>
    cases pre with
    | nil =>
      left
      cases h
      exact ⟨A2, rfl⟩
    | cons p pre2 =>
      rw [List.cons_append, List.cons_append] at h
      injection h with h1 h2
      subst h1
      rcases ih pre2 h2 with ⟨t, ht⟩ | ⟨pre3, hpre, hB⟩
      · left
        exact ⟨t, by rw [ht, List.cons_append]⟩
      · right
        exact ⟨pre3, by rw [hpre, List.cons_append], hB⟩

theorem ancestorsBefore_nil (base : FsPath) : ancestorsBefore base [] := by
  intro pre op post h
  exact absurd h.symm (by simp)

theorem ancestorsBefore_append (base : FsPath) (A B : List FsOp)
    (hA : ancestorsBefore base A) (hB : ancestorsBefore base B) :
    ancestorsBefore base (A ++ B) := by
  intro pre op post h q hq1 hq2 hq3 hq4
  rcases append_split_at A B pre post op h with ⟨t, hAe⟩ | ⟨pre2, hpre, hBe⟩
  · exact hA pre op t hAe q hq1 hq2 hq3 hq4
  · have := hB pre2 op post hBe q hq1 hq2 hq3 hq4
    rw [hpre]
    exact List.mem_append_right A this

theorem no_strict_between (base q : FsPath) (x : Name)
    (h1 : base <+: q) (h2 : q <+: base ++ [x]) : q = base ∨ q = base ++ [x] := by
  rcases h1 with ⟨t1, rfl⟩
  have ht1 : t1 <+: [x] := (List.prefix_append_right_inj base).mp h2
  cases t1 with
  | nil => left; simp
  | cons a t2 =>
    rcases ht1 with ⟨t3, ht3⟩
    rw [List.cons_append] at ht3
    injection ht3 with h3 h4
    subst h3
    rcases List.append_eq_nil.mp h4 with ⟨rfl, -⟩
    right
    rfl

theorem ancestorsBefore_single_write (base : FsPath) (x : Name) :
    ancestorsBefore base [FsOp.writeOp (base ++ [x])] := by
  intro pre op post h q hq1 hq2 hq3 hq4
  have hpre : pre = [] := by
    cases pre with
    | nil => rfl
    | cons p pre2 =>
      rw [List.cons_append] at h
      injection h with h1 h2
      exact absurd h2.symm (by simp)
  subst hpre
  rw [List.nil_append] at h
  injection h with h1 h2
  subst h1
  rcases no_strict_between base q x hq1 hq3 with rfl | rfl
  · exact absurd rfl hq2
  · exact absurd rfl hq4

theorem ancestorsBefore_cons_mkdir (base : FsPath) (x : Name) (inner : List FsOp)
    (hext : ∀ op ∈ inner, ∃ r, r ≠ [] ∧ op.opPath = (base ++ [x]) ++ r)
    (hanc : ancestorsBefore (base ++ [x]) inner) :
    ancestorsBefore base (FsOp.mkdirOp (base ++ [x]) :: inner) := by
  intro pre op post h q hq1 hq2 hq3 hq4
  cases pre with
  | nil =>
    rw [List.nil_append] at h
    injection h with h1 h2
    subst h1
    rcases no_strict_between base q x hq1 hq3 with rfl | rfl
    · exact absurd rfl hq2
    · exact absurd rfl hq4
  | cons p pre2 =>
    rw [List.cons_append] at h
    injection h with h1 h2
    subst h1
    have hop : op ∈ inner := by
      rw [h2]
      exact List.mem_append_right pre2 (List.mem_cons_self op post)
    rcases hext op hop with ⟨r, hr, hpath⟩
    have hdq : (base ++ [x]) <+: FsOp.opPath op := ⟨r, hpath.symm⟩
    rcases List.prefix_or_prefix_of_prefix hq3 hdq with hqd | hdqq
    · rcases no_strict_between base q x hq1 hqd with rfl | rfl
      · exact absurd rfl hq2
      · exact List.mem_cons_self _ _
    · by_cases heq : q = base ++ [x]
      · subst heq
        exact List.mem_cons_self _ _
      · have := hanc pre2 op post h2 q hdqq heq hq3 hq4
        exact List.mem_cons_of_mem _ this

theorem extractOps_extend : ∀ (cs : List IsoTree) (out : FsPath),
    ∀ op ∈ extractOps cs out, ∃ r, r ≠ [] ∧ op.opPath = out ++ r
  | [], out => by
    intro op hop
    rw [show extractOps [] out = [] from by simp [extractOps]] at hop
    cases hop
  | .file n :: ts, out => by
    intro op hop
    simp only [extractOps] at hop
    rcases List.mem_append.mp hop with hop | hop
    · by_cases hp : isPseudo n = true
      · rw [if_pos hp] at hop
        cases hop
      · rw [if_neg hp] at hop
        rw [List.mem_singleton] at hop
        subst hop
        exact ⟨[lowerName n], by simp, rfl⟩
    · exact extractOps_extend ts out op hop
  | .dir n cs :: ts, out => by
    intro op hop
    simp only [extractOps] at hop
    rcases List.mem_append.mp hop with hop | hop
    · by_cases hp : isPseudo n = true
      · rw [if_pos hp] at hop
        cases hop
      · rw [if_neg hp] at hop
        rcases List.mem_cons.mp hop with rfl | hop
        · exact ⟨[lowerName n], by simp, rfl⟩
        · rcases extractOps_extend cs (out ++ [lowerName n]) op hop with ⟨r, hr, hpath⟩
          exact ⟨[lowerName n] ++ r, by simp, by rw [hpath, List.append_assoc]⟩
    · exact extractOps_extend ts out op hop

theorem extractOps_ancestors : ∀ (cs : List IsoTree) (base : FsPath),
    ancestorsBefore base (extractOps cs base)
  | [], base => by
    rw [show extractOps [] base = [] from by simp [extractOps]]
    exact ancestorsBefore_nil base
  | .file n :: ts, base => by
    simp only [extractOps]
    apply ancestorsBefore_append
    · by_cases hp : isPseudo n = true
      · rw [if_pos hp]
        exact ancestorsBefore_nil base
      · rw [if_neg hp]
        exact ancestorsBefore_single_write base (lowerName n)
    · exact extractOps_ancestors ts base
  | .dir n cs :: ts, base => by
    simp only [extractOps]
    apply ancestorsBefore_append
    · by_cases hp : isPseudo n = true
      · rw [if_pos hp]
        exact ancestorsBefore_nil base
      · rw [if_neg hp]
        exact ancestorsBefore_cons_mkdir base (lowerName n) _
          (extractOps_extend cs (base ++ [lowerName n]))
          (extractOps_ancestors cs (base ++ [lowerName n]))
    · exact extractOps_ancestors ts base

/-- C8: the ISO extraction walk writes exactly the tree's non-pseudo file
nodes at `base ++ (relative path, every component lower-cased)`, creates
exactly the non-pseudo directory nodes at the analogously lower-cased
mirrored paths (`.`/`..` pseudo-entries contribute nothing), and wherever an
operation's path properly extends a directory path below the base, that
directory's mkdir appears strictly earlier in the operation sequence —
directories are created before their children are recursed into. -/
theorem iso_extract_mirror (cs : List IsoTree) (base : FsPath) :
    writePaths (extractOps cs base)
      = (filesUnder cs).map (fun rp => base ++ rp.map lowerName)
    ∧ mkdirPaths (extractOps cs base)
      = (dirsUnder cs).map (fun rp => base ++ rp.map lowerName)
    ∧ ancestorsBefore base (extractOps cs base) :=
  ⟨extractOps_writePaths cs base, extractOps_mkdirPaths cs base, extractOps_ancestors cs base⟩

/-- C8 witness: on a concrete tree (`A/B.TXT` plus pseudo-entries and a root
file `C.DAT`), the mkdir of `out/fatdata/a` precedes the write of
`out/fatdata/a/b.txt`, and the write set is the lower-cased mirror. -/
theorem iso_extract_mirror_witness :
    FsOp.mkdirOp ["out".toList, "fatdata".toList, "a".toList]
      ∈ [FsOp.mkdirOp ["out".toList, "fatdata".toList, "a".toList]] :=
  (iso_extract_mirror
    [IsoTree.dir "A".toList [IsoTree.file "B.TXT".toList, IsoTree.file ".".toList],
     IsoTree.file "C.DAT".toList]
    ["out".toList, "fatdata".toList]).2.2
    [FsOp.mkdirOp ["out".toList, "fatdata".toList, "a".toList]]
    (FsOp.writeOp ["out".toList, "fatdata".toList, "a".toList, "b.txt".toList])
    [FsOp.writeOp ["out".toList, "fatdata".toList, "c.dat".toList]]
    (by simp [extractOps, isPseudo, lowerName])
    ["out".toList, "fatdata".toList, "a".toList]
    (by decide) (by decide) (by decide) (by decide)

theorem splitSlash_ne_nil : ∀ (s : Name), splitSlash s ≠ []
  | [] => by simp [splitSlash]
  | c :: rest => by
    simp only [splitSlash]
    cases h : splitSlash rest with
    | nil => exact absurd h (splitSlash_ne_nil rest)
    | cons a as =>
      by_cases hc : c = '/'
      · simp [hc]
      · simp [hc]

theorem mem_splitSlash_no_slash : ∀ (s : Name) (seg : Name), seg ∈ splitSlash s → '/' ∉ seg
  | [], seg => by
    intro hseg
    simp only [splitSlash, List.mem_singleton] at hseg
    subst hseg
    simp
  | c :: rest, seg => by
    intro hseg
    simp only [splitSlash] at hseg
    cases h : splitSlash rest with
    | nil => exact absurd h (splitSlash_ne_nil rest)
    | cons a as =>
      rw [h] at hseg
      dsimp only at hseg
      by_cases hc : c = '/'
      · rw [if_pos hc] at hseg
        rcases List.mem_cons.mp hseg with rfl | hseg
        · simp
        · exact mem_splitSlash_no_slash rest seg (h ▸ hseg)
      · rw [if_neg hc] at hseg
        rcases List.mem_cons.mp hseg with rfl | hseg
        · intro hmem
          rcases List.mem_cons.mp hmem with h1 | h1
          · exact hc h1.symm
          · exact mem_splitSlash_no_slash rest a (h ▸ List.mem_cons_self a as) h1
        · exact mem_splitSlash_no_slash rest seg (h ▸ List.mem_cons_of_mem a hseg)

theorem splitSlash_append : ∀ (x y : Name),
    splitSlash (x ++ '/' :: y) = splitSlash x ++ splitSlash y
  | [], y => by
    cases h : splitSlash y with
    | nil => exact absurd h (splitSlash_ne_nil y)
    | cons s ss => simp [splitSlash, h]
  | c :: x2, y => by
    have ih := splitSlash_append x2 y
    cases h : splitSlash x2 with
    | nil => exact absurd h (splitSlash_ne_nil x2)
    | cons s ss =>
      rw [List.cons_append]
      simp only [splitSlash, ih, h, List.cons_append]
      by_cases hc : c = '/'
      · simp [hc]
      · simp [hc]

theorem splitSlash_of_no_slash : ∀ (s : Name), '/' ∉ s → splitSlash s = [s]
  | [], _ => rfl
  | c :: rest, h => by
    have hc : ¬c = '/' := fun hcc => h (hcc ▸ List.mem_cons_self c rest)
    have ih := splitSlash_of_no_slash rest (fun hm => h (List.mem_cons_of_mem c hm))
    simp [splitSlash, ih, hc]

theorem splitSlash_join_flatten : ∀ (L : List Name), L ≠ [] →
    splitSlash (joinSlash L) = (L.map splitSlash).flatten
  | [], h => absurd rfl h
  | [s], _ => by simp [joinSlash]
  | s :: t :: rest, _ => by
    rw [show joinSlash (s :: t :: rest) = s ++ '/' :: joinSlash (t :: rest) from rfl]
    rw [splitSlash_append, splitSlash_join_flatten (t :: rest) (by simp)]
    simp

theorem mem_splitSlash_join (L : List Name) (hL : L ≠ []) (seg : Name) :
    seg ∈ splitSlash (joinSlash L) ↔ ∃ p ∈ L, seg ∈ splitSlash p := by
  rw [splitSlash_join_flatten L hL]
  simp [List.mem_flatten]

theorem splitSlash_join_of_no_slash : ∀ (L : List Name), (∀ p ∈ L, '/' ∉ p) → L ≠ [] →
    splitSlash (joinSlash L) = L
  | [], _, h => absurd rfl h
  | [s], h, _ => by
    rw [show joinSlash [s] = s from rfl]
    exact splitSlash_of_no_slash s (h s (List.mem_singleton.mpr rfl))
  | s :: t :: rest, h, _ => by
    rw [show joinSlash (s :: t :: rest) = s ++ '/' :: joinSlash (t :: rest) from rfl]
    rw [splitSlash_append]
    rw [splitSlash_of_no_slash s (h s (List.mem_cons_self _ _))]
    rw [splitSlash_join_of_no_slash (t :: rest)
      (fun p hp => h p (List.mem_cons_of_mem s hp)) (by simp)]
    rfl

theorem rstripSlash_decomp (s : Name) :
    ∃ k, s = rstripSlash s ++ List.replicate k '/' := by
  refine ⟨(s.reverse.takeWhile (fun c => c = '/')).length, ?_⟩
  have htk : s.reverse.takeWhile (fun c => c = '/')
      = List.replicate (s.reverse.takeWhile (fun c => c = '/')).length '/' := by
    apply List.eq_replicate_of_mem
    intro b hb
    have := List.mem_takeWhile_imp hb
    simpa using this
  calc s = s.reverse.reverse := by rw [List.reverse_reverse]
    _ = ((s.reverse.takeWhile (fun c => c = '/')) ++ (s.reverse.dropWhile (fun c => c = '/'))).reverse := by
        rw [List.takeWhile_append_dropWhile]
    _ = rstripSlash s ++ (s.reverse.takeWhile (fun c => c = '/')).reverse := by
        rw [List.reverse_append]; rfl
    _ = rstripSlash s ++ List.replicate (s.reverse.takeWhile (fun c => c = '/')).length '/' := by
        congr 1
        conv_lhs => rw [htk]
        rw [List.reverse_replicate]

theorem splitSlash_replicate : ∀ (k : Nat),
    splitSlash (List.replicate k '/') = List.replicate (k + 1) []
  | 0 => rfl
  | k + 1 => by
    rw [List.replicate_succ]
    simp only [splitSlash, splitSlash_replicate k, List.replicate_succ]
    simp

theorem splitSlash_append_replicate (a : Name) (k : Nat) :
    splitSlash (a ++ List.replicate k '/') = splitSlash a ++ List.replicate k [] := by
  cases k with
  | zero => simp
  | succ k2 =>
    rw [List.replicate_succ, splitSlash_append, splitSlash_replicate]

theorem mem_splitSlash_rstrip_iff (s seg : Name) (hseg : seg ≠ []) :
    seg ∈ splitSlash (rstripSlash s) ↔ seg ∈ splitSlash s := by
  rcases rstripSlash_decomp s with ⟨k, hk⟩
  conv_rhs => rw [hk]
  rw [splitSlash_append_replicate, List.mem_append]
  constructor
  · exact Or.inl
  · rintro (h | h)
    · exact h
    · exact absurd (List.eq_of_mem_replicate h) hseg

theorem relSegs_no_slash (s p : Name) (hp : p ∈ relSegs s) :
    '/' ∉ p ∧ p ≠ [] ∧ p ≠ ['.'] := by
  unfold relSegs at hp
  have h1 := List.mem_of_mem_filter hp
  have h2 := (List.mem_filter.mp hp).2
  simp only [decide_eq_true_eq] at h2
  exact ⟨mem_splitSlash_no_slash s p h1, h2.1, h2.2⟩

theorem pyParts_cases (s p : Name) (hp : p ∈ pyParts s) :
    p = ['/'] ∨ p = ['/', '/'] ∨ ('/' ∉ p ∧ p ≠ [] ∧ p ≠ ['.']) := by
  unfold pyParts at hp
  rcases List.mem_append.mp hp with hr | hrel
  · unfold pyRoot at hr
    split at hr
    · rw [List.mem_singleton] at hr
      exact Or.inr (Or.inl hr)
    · split at hr
      · rw [List.mem_singleton] at hr
        exact Or.inl hr
      · cases hr
  · exact Or.inr (Or.inr (relSegs_no_slash s p hrel))

theorem segMatches_shape (seg : Name) (h : segMatches seg = true) :
    '/' ∉ seg ∧ seg ≠ [] := by
  unfold segMatches at h
  rw [beq_iff_eq] at h
  constructor
  · intro hmem
    have : Char.toLower '/' ∈ lowerName seg := List.mem_map_of_mem Char.toLower hmem
    rw [h] at this
    exact absurd this (by decide)
  · intro hnil
    rw [hnil] at h
    exact absurd h (by decide)

theorem mem_insertNew (acc : List Name) (x y : Name) :
    y ∈ insertNew acc x ↔ y ∈ acc ∨ y = x := by
  unfold insertNew
  by_cases hx : x ∈ acc
  · rw [if_pos hx]
    constructor
    · exact Or.inl
    · rintro (h | rfl)
      · exact h
      · exact hx
  · rw [if_neg hx]
    simp

theorem mem_foldl_insertNew (l : List Name) (acc : List Name) (y : Name) :
    y ∈ l.foldl insertNew acc ↔ y ∈ acc ∨ y ∈ l := by
  induction l generalizing acc with
  | nil => simp
  | cons a l2 ih =>
    rw [List.foldl_cons, ih, mem_insertNew]
    constructor
    · rintro ((h | rfl) | h)
      · exact Or.inl h
      · exact Or.inr (List.mem_cons_self _ _)
      · exact Or.inr (List.mem_cons_of_mem a h)
    · rintro (h | h)
      · exact Or.inl (Or.inl h)
      · rcases List.mem_cons.mp h with rfl | h
        · exact Or.inl (Or.inr rfl)
        · exact Or.inr h

theorem mem_allDirPaths (names : List Name) (p : Name) :
    p ∈ allDirPaths names ↔ ∃ n ∈ names, p ∈ entryDirPaths n := by
  unfold allDirPaths
  suffices h : ∀ (acc : List Name), p ∈ names.foldl
      (fun acc n => (entryDirPaths n).foldl insertNew acc) acc ↔
      p ∈ acc ∨ ∃ n ∈ names, p ∈ entryDirPaths n by
    rw [h []]
    simp
  induction names with
  | nil => simp
  | cons m names2 ih =>
    intro acc
    rw [List.foldl_cons, ih, mem_foldl_insertNew]
    constructor
    · rintro ((h | h) | ⟨n, hn, hp⟩)
      · exact Or.inl h
      · exact Or.inr ⟨m, List.mem_cons_self _ _, h⟩
      · exact Or.inr ⟨n, List.mem_cons_of_mem m hn, hp⟩
    · rintro (h | ⟨n, hn, hp⟩)
      · exact Or.inl (Or.inl h)
      · rcases List.mem_cons.mp hn with rfl | hn
        · exact Or.inl (Or.inr hp)
        · exact Or.inr ⟨n, hn, hp⟩

theorem mem_entryDirPaths (n d : Name) :
    d ∈ entryDirPaths n ↔ ∃ i, 1 ≤ i ∧ i ≤ (pyParts n).length ∧
      (endsSlash (joinSlash ((pyParts n).take i)) = true ∨ i < (pyParts n).length) ∧
      d = rstripSlash (joinSlash ((pyParts n).take i)) := by
  unfold entryDirPaths
  rw [List.mem_filterMap]
  constructor
  · rintro ⟨k, hk, hf⟩
    rw [List.mem_range] at hk
    by_cases hc : (endsSlash (joinSlash ((pyParts n).take (k + 1))) ||
        decide (k + 1 < (pyParts n).length)) = true
    · rw [if_pos hc] at hf
      injection hf with hf
      refine ⟨k + 1, by omega, by omega, ?_, hf.symm⟩
      rcases Bool.or_eq_true _ _ |>.mp hc with h | h
      · exact Or.inl h
      · exact Or.inr (by simpa using h)
    · rw [if_neg hc] at hf
      cases hf
  · rintro ⟨i, h1, h2, h3, rfl⟩
    refine ⟨i - 1, by rw [List.mem_range]; omega, ?_⟩
    have hi : i - 1 + 1 = i := by omega
    rw [hi]
    rw [if_pos ?_]
    rcases h3 with h | h
    · exact Bool.or_eq_true _ _ |>.mpr (Or.inl h)
    · exact Bool.or_eq_true _ _ |>.mpr (Or.inr (by simpa using h))

theorem getLast?_append_right {α : Type u} (l₁ l₂ : List α) (h : l₂ ≠ []) :
    (l₁ ++ l₂).getLast? = l₂.getLast? :=
  List.getLast?_append_of_ne_nil l₁ h

theorem joinSlash_getLast? : ∀ (L : List Name) (p : Name), L.getLast? = some p → p ≠ [] →
    (joinSlash L).getLast? = p.getLast?
  | [], p, h, _ => by cases h
  | [x], p, h, _ => by
    rw [show ([x] : List Name).getLast? = some x from rfl] at h
    injection h with h
    subst h
    rfl
  | x :: y :: rest, p, h, hp => by
    rw [List.getLast?_cons_cons] at h
    have ih := joinSlash_getLast? (y :: rest) p h hp
    have hj : joinSlash (y :: rest) ≠ [] := by
      intro hnil
      rw [hnil] at ih
      have hs : p.getLast?.isSome = true := List.getLast?_isSome.mpr hp
      rw [← ih] at hs
      cases hs
    rw [show joinSlash (x :: y :: rest) = x ++ '/' :: joinSlash (y :: rest) from rfl]
    rw [getLast?_append_right x ('/' :: joinSlash (y :: rest)) (by simp)]
    rw [show ('/' :: joinSlash (y :: rest)) = ['/'] ++ joinSlash (y :: rest) from rfl]
    rw [getLast?_append_right ['/'] (joinSlash (y :: rest)) hj]
    exact ih

theorem mem_take_get? {α : Type u} : ∀ (l : List α) (i : Nat) (a : α),
    a ∈ l.take i → ∃ j, j < i ∧ l.get? j = some a
  | [], i, a => by simp
  | x :: l2, 0, a => by simp
  | x :: l2, i + 1, a => by
    intro h
    rw [List.take_succ_cons] at h
    rcases List.mem_cons.mp h with rfl | h
    · exact ⟨0, by omega, rfl⟩
    · rcases mem_take_get? l2 i a h with ⟨j, hj, hget⟩
      exact ⟨j + 1, by omega, by simpa using hget⟩

theorem get?_mem_take {α : Type u} : ∀ (l : List α) (i j : Nat) (a : α),
    l.get? j = some a → j < i → a ∈ l.take i
  | [], i, j, a => by simp
  | x :: l2, 0, j, a => by omega
  | x :: l2, i + 1, 0, a => by
    intro h _
    injection h with h
    subst h
    rw [List.take_succ_cons]
    exact List.mem_cons_self _ _
  | x :: l2, i + 1, j + 1, a => by
    intro h hj
    rw [List.take_succ_cons]
    refine List.mem_cons_of_mem x (get?_mem_take l2 i j a (by simpa using h) (by omega))

theorem pyIndex_get? : ∀ (l : List Name) (x : Name), x ∈ l → l.get? (pyIndex l x) = some x
  | [], x, h => absurd h (List.not_mem_nil x)
  | y :: ys, x, h => by
    unfold pyIndex
    by_cases hyx : y = x
    · rw [if_pos hyx, hyx]
      rfl
    · rw [if_neg hyx]
      have hx : x ∈ ys := by
        rcases List.mem_cons.mp h with rfl | h2
        · exact absurd rfl hyx
        · exact h2
      simpa using pyIndex_get? ys x hx

theorem pyIndex_lt : ∀ (l : List Name) (x : Name), x ∈ l → pyIndex l x < l.length
  | [], x, h => absurd h (List.not_mem_nil x)
  | y :: ys, x, h => by
    unfold pyIndex
    by_cases hyx : y = x
    · rw [if_pos hyx]
      simp
    · rw [if_neg hyx]
      have hx : x ∈ ys := by
        rcases List.mem_cons.mp h with rfl | h2
        · exact absurd rfl hyx
        · exact h2
      have := pyIndex_lt ys x hx
      simpa using this

theorem findInPath_isSome_iff (path : Name) :
    (findInPath path).isSome = true ↔ ∃ seg ∈ splitSlash path, segMatches seg = true := by
  unfold findInPath
  dsimp only
  cases hf : (splitSlash path).find? segMatches with
  | none =>
    simp only [Option.map_none', Option.isSome_none]
    constructor
    · intro h
      cases h
    · rintro ⟨seg, hseg, hm⟩
      have := List.find?_eq_none.mp hf seg hseg
      exact absurd hm this
  | some part =>
    simp only [Option.map_some', Option.isSome_some, true_iff]
    exact ⟨part, List.mem_of_find?_eq_some hf, List.find?_some hf⟩

theorem findInPath_last (path r : Name) (h : findInPath path = some r) :
    ∃ s, (splitSlash r).getLast? = some s ∧ segMatches s = true := by
  unfold findInPath at h
  dsimp only at h
  cases hf : (splitSlash path).find? segMatches with
  | none => rw [hf] at h; cases h
  | some part =>
    rw [hf] at h
    injection h with h
    subst h
    have hmem : part ∈ splitSlash path := List.mem_of_find?_eq_some hf
    have hmatch : segMatches part = true := List.find?_some hf
    have hidx := pyIndex_get? (splitSlash path) part hmem
    have hlt := pyIndex_lt (splitSlash path) part hmem
    set ps := splitSlash path with hps
    set idx := pyIndex ps part with hidx2
    have htake_ne : ps.take (idx + 1) ≠ [] := by
      have hlen : (ps.take (idx + 1)).length = idx + 1 := by
        rw [List.length_take]
        omega
      intro hnil
      rw [hnil] at hlen
      simp at hlen
    have hsplit : splitSlash (joinSlash (ps.take (idx + 1))) = ps.take (idx + 1) := by
      apply splitSlash_join_of_no_slash
      · intro p hp
        exact mem_splitSlash_no_slash path p (List.mem_of_mem_take hp)
      · exact htake_ne
    refine ⟨part, ?_, hmatch⟩
    rw [hsplit]
    rw [List.getLast?_eq_getElem?]
    rw [List.length_take]
    have hmin : min (idx + 1) ps.length = idx + 1 := by omega
    rw [hmin]
    simp only [Nat.add_sub_cancel]
    rw [List.getElem?_take_of_lt (by omega)]
    rw [← List.get?_eq_getElem?]
    exact hidx

theorem pyRoot_cases (s : Name) :
    pyRoot s = [] ∨ pyRoot s = [['/']] ∨ pyRoot s = [['/', '/']] := by
  unfold pyRoot
  split
  · exact Or.inr (Or.inr rfl)
  · split
    · exact Or.inr (Or.inl rfl)
    · exact Or.inl rfl

theorem endsSlash_join_pyParts (n : Name) (h : relSegs n ≠ []) :
    endsSlash (joinSlash (pyParts n)) = false := by
  obtain ⟨q, hq⟩ : ∃ q, (relSegs n).getLast? = some q := by
    have := List.getLast?_isSome.mpr h
    cases hgl : (relSegs n).getLast? with
    | none => rw [hgl] at this; cases this
    | some q => exact ⟨q, rfl⟩
  have hqmem : q ∈ relSegs n := List.mem_of_getLast?_eq_some hq
  obtain ⟨hqs, hqne, -⟩ := relSegs_no_slash n q hqmem
  have hparts_last : (pyParts n).getLast? = some q := by
    unfold pyParts
    rw [getLast?_append_right _ _ h, hq]
  have hjoin := joinSlash_getLast? (pyParts n) q hparts_last hqne
  unfold endsSlash
  rw [hjoin]
  obtain ⟨c, hc⟩ : ∃ c, q.getLast? = some c := by
    have := List.getLast?_isSome.mpr hqne
    cases hgl : q.getLast? with
    | none => rw [hgl] at this; cases this
    | some c => exact ⟨c, rfl⟩
  rw [hc]
  have hcm : c ∈ q := List.mem_of_getLast?_eq_some hc
  have hcne : c ≠ '/' := fun hcc => hqs (hcc ▸ hcm)
  simp [hcne]

/-- C4 counterexample: the archive whose sole entry is the pure
directory-marker `"FATDATA/"` implies (per the claim's own set, which
includes directories declared only by marker entries) a directory path
`FATDATA` with a matching segment — yet `find_fatdata_path` returns nothing,
because pathlib strips the trailing slash and the code then only records the
strict ancestors of the normalized parts. -/
theorem zip_find_marker_only_cx :
    (∃ p ∈ claimedDirPaths ["FATDATA/".toList],
      ∃ seg ∈ splitSlash p, segMatches seg = true)
    ∧ ZipHandler.find_fatdata_path ["FATDATA/".toList] = none := by
  constructor
  · exact ⟨"FATDATA".toList, by decide, "FATDATA".toList, by decide, by decide⟩
  · rfl

/-- C4 (amended): `ZipHandler.find_fatdata_path` returns a path iff some
entry name has a case-insensitive whole-segment `"fatdata"` among the
non-final parts of its pathlib-normalized name — i.e. the candidate set
contains exactly the strict-ancestor directory prefixes of each entry, so a
directory named only by a pure trailing-slash marker entry contributes its
parents but not itself; the comparison is per whole segment, and any
returned path ends at a matching segment. -/
theorem zip_find_iff_nonfinal_segment (names : List Name) :
    ((ZipHandler.find_fatdata_path names).isSome = true ↔
      ∃ n ∈ names, ∃ j s, (pyParts n).get? j = some s ∧ j + 1 < (pyParts n).length ∧
        segMatches s = true)
    ∧ (∀ r, ZipHandler.find_fatdata_path names = some r →
        ∃ s, (splitSlash r).getLast? = some s ∧ segMatches s = true) := by
  constructor
  · constructor
    · intro hs
      unfold ZipHandler.find_fatdata_path at hs
      simp only [List.findSome?_isSome_iff] at hs
      obtain ⟨path, hpath, hfind⟩ := hs
      rw [findInPath_isSome_iff] at hfind
      obtain ⟨seg, hseg, hmatch⟩ := hfind
      obtain ⟨hsegslash, hsegne⟩ := segMatches_shape seg hmatch
      rw [mem_allDirPaths] at hpath
      obtain ⟨n, hn, hentry⟩ := hpath
      rw [mem_entryDirPaths] at hentry
      obtain ⟨i, hi1, hi2, hcond, rfl⟩ := hentry
      rw [mem_splitSlash_rstrip_iff _ _ hsegne] at hseg
      have htake_ne : (pyParts n).take i ≠ [] := by
        have hlen : ((pyParts n).take i).length = i := by
          rw [List.length_take]
          omega
        intro hnil
        rw [hnil] at hlen
        simp at hlen
        omega
      rw [mem_splitSlash_join _ htake_ne] at hseg
      obtain ⟨p, hp, hsegp⟩ := hseg
      have hpparts : p ∈ pyParts n := List.mem_of_mem_take hp
      rcases pyParts_cases n p hpparts with rfl | rfl | ⟨hps, hpne, -⟩
      · rw [show splitSlash ['/'] = [[], []] from rfl] at hsegp
        rcases List.mem_cons.mp hsegp with rfl | hsegp
        · exact absurd rfl hsegne
        · rw [List.mem_singleton] at hsegp
          exact absurd hsegp hsegne
      · rw [show splitSlash ['/', '/'] = [[], [], []] from rfl] at hsegp
        rcases List.mem_cons.mp hsegp with rfl | hsegp
        · exact absurd rfl hsegne
        · rcases List.mem_cons.mp hsegp with rfl | hsegp
          · exact absurd rfl hsegne
          · rw [List.mem_singleton] at hsegp
            exact absurd hsegp hsegne
      · rw [splitSlash_of_no_slash p hps, List.mem_singleton] at hsegp
        subst hsegp
        obtain ⟨j, hj, hget⟩ := mem_take_get? _ _ _ hp
        refine ⟨n, hn, j, seg, hget, ?_, hmatch⟩
        by_cases hilen : i < (pyParts n).length
        · omega
        · have hie : i = (pyParts n).length := by omega
          rcases hcond with hend | hlt
          · rw [hie, List.take_length] at hend
            by_cases hrel : relSegs n = []
            · exfalso
              have hpr : seg ∈ pyRoot n := by
                unfold pyParts at hpparts
                rw [hrel, List.append_nil] at hpparts
                exact hpparts
              rcases pyRoot_cases n with hc | hc | hc <;> rw [hc] at hpr
              · cases hpr
              · rw [List.mem_singleton] at hpr
                subst hpr
                exact hps (List.mem_singleton.mpr rfl)
              · rw [List.mem_singleton] at hpr
                subst hpr
                exact hps (List.mem_cons_self _ _)
            · have hfalse := endsSlash_join_pyParts n hrel
              rw [hfalse] at hend
              cases hend
          · omega
    · rintro ⟨n, hn, j, s, hget, hjlen, hmatch⟩
      unfold ZipHandler.find_fatdata_path
      simp only [List.findSome?_isSome_iff]
      obtain ⟨hss, hsne⟩ := segMatches_shape s hmatch
      have hjlt : j < (pyParts n).length := by omega
      refine ⟨rstripSlash (joinSlash ((pyParts n).take (j + 1))), ?_, ?_⟩
      · rw [mem_allDirPaths]
        refine ⟨n, hn, ?_⟩
        rw [mem_entryDirPaths]
        exact ⟨j + 1, by omega, by omega, Or.inr (by omega), rfl⟩
      · rw [findInPath_isSome_iff]
        refine ⟨s, ?_, hmatch⟩
        rw [mem_splitSlash_rstrip_iff _ _ hsne]
        have htake_ne : (pyParts n).take (j + 1) ≠ [] := by
          have hlen : ((pyParts n).take (j + 1)).length = j + 1 := by
            rw [List.length_take]
            omega
          intro hnil
          rw [hnil] at hlen
          simp at hlen
        rw [mem_splitSlash_join _ htake_ne]
        refine ⟨s, get?_mem_take (pyParts n) (j + 1) j s hget (by omega), ?_⟩
        rw [splitSlash_of_no_slash s hss]
        exact List.mem_singleton.mpr rfl
  · intro r hr
    unfold ZipHandler.find_fatdata_path at hr
    obtain ⟨path, hpath, hfp⟩ := List.exists_of_findSome?_eq_some hr
    exact findInPath_last path r hfp

/-- C4 witness: on the archive `["a/FatData/sub/x.bin"]` the handler finds
`"a/FatData"`, whose last segment matches `fatdata` case-insensitively. -/
theorem zip_find_iff_nonfinal_segment_witness :
    ∃ s, (splitSlash "a/FatData".toList).getLast? = some s ∧ segMatches s = true :=
  (zip_find_iff_nonfinal_segment ["a/FatData/sub/x.bin".toList]).2
    "a/FatData".toList (by rfl)

end Roller
